import Mathlib

/-!
Shallow embedding of `compiler_project/simple_lexer.py`: the ordered-pattern
scanner (`SimpleRegexLexer.tokenize`), the diagnostics pass
(`SimpleRegexLexer.find_problems`) and the call-merge pass
(`SimpleRegexLexer.combine_function_calls`).

Source text is modelled as `List Char`; positions are absolute character
offsets.  Each entry of the Python `patterns` dict is translated to a matcher
`... → Option (List Char × List Char)` returning the matched lexeme and the
remaining input; the master regex alternation is the ordered chain
`masterMatch`, trying the matchers in the dict's declaration order and keeping
the first success, exactly like Python's first-alternative-wins alternation.
`re.finditer` is modelled by `scanAux`, which tries `masterMatch` at every
position from left to right and skips one character when nothing matches.
-/

namespace SimpleLexer

/-- Python `\w` on the ASCII dialect accepted by the lexer. -/
def isWordChar (c : Char) : Bool := c.isAlphanum || c == '_'

/-- Python `\s` (ASCII whitespace set of `re`). -/
def isSpaceChar (c : Char) : Bool :=
  c == ' ' || c == '\t' || c == '\n' || c == '\r' || c == '\x0b' || c == '\x0c'

/-- `[0-9a-fA-F]`. -/
def isHexDig (c : Char) : Bool :=
  c.isDigit || ('a' ≤ c && c ≤ 'f') || ('A' ≤ c && c ≤ 'F')

/-- `[0-7]`. -/
def isOctDig (c : Char) : Bool := '0' ≤ c && c ≤ '7'

/-- `[01]`. -/
def isBinDig (c : Char) : Bool := c == '0' || c == '1'

/-- Split a list into its maximal prefix satisfying `p` and the remainder
(the greedy `X*` step of a regex whose continuation cannot match `p`). -/
def splitWhile (p : Char → Bool) : List Char → List Char × List Char
  | [] => ([], [])
  | c :: cs =>
    if p c then (c :: (splitWhile p cs).1, (splitWhile p cs).2)
    else ([], c :: cs)

/-- Match a literal: if `w` is a prefix of `cs`, return the remainder. -/
def stripLit : List Char → List Char → Option (List Char)
  | [], cs => some cs
  | _ :: _, [] => none
  | w :: ws, c :: cs => if w = c then stripLit ws cs else none

/-- Python's substring test `needle in hay`. -/
def hasSubstr (needle : List Char) : List Char → Bool
  | [] => needle.isEmpty
  | c :: t => needle.isPrefixOf (c :: t) || hasSubstr needle t

/-- Word boundary `\b` before the current position: start of input or a
non-word character just before (the current character is a word character
whenever the following literal word matches). -/
def boundaryBefore : Option Char → Bool
  | none => true
  | some c => !isWordChar c

/-- Word boundary `\b` after a word: end of input or a non-word character. -/
def boundaryAfter : List Char → Bool
  | [] => true
  | c :: _ => !isWordChar c

/-- `^` under `re.MULTILINE`: start of input or just after a newline. -/
def atLineStart : Option Char → Bool
  | none => true
  | some c => c == '\n'

/-- First word of the list that is a literal prefix and is followed by a word
boundary; Python's alternation `(w1|w2|...)\b` tries the words in order and
backtracks to the next alternative when the trailing `\b` fails. -/
def findWord : List (List Char) → List Char → Option (List Char × List Char)
  | [], _ => none
  | w :: ws, cs =>
    match stripLit w cs with
    | some r => if boundaryAfter r then some (w, r) else findWord ws cs
    | none => findWord ws cs

/-- First literal of the list that is a prefix (no boundary requirement). -/
def findLit : List (List Char) → List Char → Option (List Char × List Char)
  | [], _ => none
  | w :: ws, cs =>
    match stripLit w cs with
    | some r => some (w, r)
    | none => findLit ws cs

/-- Token categories: the keys of the `patterns` dict in declaration order,
plus the synthesized `FUNCTION_CALL` kind produced by the merge pass. -/
inductive TokType where
  | COMMENT
  | STANDARD_LIBRARY
  | OWN_LIBRARY
  | PREPROCESSOR
  | STRING
  | CHAR
  | HEX_NUMBER
  | BINARY_NUMBER
  | FLOAT_NUMBER
  | OCTAL_NUMBER
  | INT_NUMBER
  | KEYWORD
  | TYPE
  | BOOLEAN
  | NULL
  | OPERATOR_2CHAR
  | OPERATOR_1CHAR
  | SYMBOL
  | IDENTIFIER
  | NAMESPACE
  | WHITESPACE
  | FUNCTION_CALL
deriving DecidableEq

/-- The `Token` dataclass. -/
structure Token where
  type : TokType
  value : List Char
  line : Nat
  column : Nat
  filename : List Char
deriving DecidableEq

/-- The `Problem` dataclass of `run_lexer.py` (`line`, `message`, `solution`),
as appended by `ProblemTracker.add_problem`. -/
structure Problem where
  line : Nat
  message : List Char
  solution : List Char
deriving DecidableEq

/-- A raw scanner match: category, lexeme and absolute start offset. -/
structure Raw where
  type : TokType
  value : List Char
  pos : Nat
deriving DecidableEq

/-! ### The pattern matchers, one per entry of the `patterns` dict -/

/-- Shortest run ending in the closing `*/` (the non-greedy `[\s\S]*?\*/`). -/
def findCommentEnd : List Char → Option (List Char × List Char)
  | [] => none
  | c :: rest =>
    if c = '*' ∧ rest.head? = some '/' then some (['*', '/'], rest.tail)
    else (findCommentEnd rest).map (fun p => (c :: p.1, p.2))

/-- `COMMENT`: `//.*|/\*[\s\S]*?\*/`. -/
def matchComment : List Char → Option (List Char × List Char)
  | '/' :: '/' :: rest =>
    some ('/' :: '/' :: (splitWhile (fun c => !(c == '\n')) rest).1,
      (splitWhile (fun c => !(c == '\n')) rest).2)
  | '/' :: '*' :: rest =>
    (findCommentEnd rest).map (fun p => ('/' :: '*' :: p.1, p.2))
  | _ => none

def includeWord : List Char := ['i', 'n', 'c', 'l', 'u', 'd', 'e']

/-- `STANDARD_LIBRARY`: `^\s*#\s*include\s*<[^>]+>` (multiline `^`). -/
def matchStdLib (lineStart : Bool) (cs : List Char) :
    Option (List Char × List Char) :=
  if !lineStart then none else
  let s1 := splitWhile isSpaceChar cs
  match s1.2 with
  | '#' :: r2 =>
    let s2 := splitWhile isSpaceChar r2
    match stripLit includeWord s2.2 with
    | some r4 =>
      let s3 := splitWhile isSpaceChar r4
      match s3.2 with
      | '<' :: r6 =>
        let s4 := splitWhile (fun c => !(c == '>')) r6
        match s4.1, s4.2 with
        | _ :: _, '>' :: r8 =>
          some (s1.1 ++ '#' :: s2.1 ++ includeWord ++ s3.1 ++ '<' :: s4.1 ++ ['>'], r8)
        | _, _ => none
      | _ => none
    | none => none
  | _ => none

/-- `OWN_LIBRARY`: `^\s*#\s*include\s*"[^"]+"` (multiline `^`). -/
def matchOwnLib (lineStart : Bool) (cs : List Char) :
    Option (List Char × List Char) :=
  if !lineStart then none else
  let s1 := splitWhile isSpaceChar cs
  match s1.2 with
  | '#' :: r2 =>
    let s2 := splitWhile isSpaceChar r2
    match stripLit includeWord s2.2 with
    | some r4 =>
      let s3 := splitWhile isSpaceChar r4
      match s3.2 with
      | '"' :: r6 =>
        let s4 := splitWhile (fun c => !(c == '"')) r6
        match s4.1, s4.2 with
        | _ :: _, '"' :: r8 =>
          some (s1.1 ++ '#' :: s2.1 ++ includeWord ++ s3.1 ++ '"' :: s4.1 ++ ['"'], r8)
        | _, _ => none
      | _ => none
    | none => none
  | _ => none

/-- The directive alternatives of the `PREPROCESSOR` pattern, in order. -/
def directiveWords : List (List Char) :=
  [['d', 'e', 'f', 'i', 'n', 'e'],
   ['u', 'n', 'd', 'e', 'f'],
   ['i', 'f', 'd', 'e', 'f'],
   ['i', 'f', 'n', 'd', 'e', 'f'],
   ['e', 'n', 'd', 'i', 'f'],
   ['p', 'r', 'a', 'g', 'm', 'a'],
   ['e', 'r', 'r', 'o', 'r'],
   ['w', 'a', 'r', 'n', 'i', 'n', 'g'],
   ['e', 'l', 'i', 'f'],
   ['e', 'l', 's', 'e']]

/-- `PREPROCESSOR`:
`^\s*#\s*(define|undef|ifdef|ifndef|endif|pragma|error|warning|elif|else)\b.*$`. -/
def matchPre (lineStart : Bool) (cs : List Char) :
    Option (List Char × List Char) :=
  if !lineStart then none else
  let s1 := splitWhile isSpaceChar cs
  match s1.2 with
  | '#' :: r2 =>
    let s2 := splitWhile isSpaceChar r2
    match findWord directiveWords s2.2 with
    | some (d, r4) =>
      let s3 := splitWhile (fun c => !(c == '\n')) r4
      some (s1.1 ++ '#' :: s2.1 ++ d ++ s3.1, s3.2)
    | none => none
  | _ => none

/-- Body of `STRING` after the opening quote: `(?:\\.|[^"\\])*"` where `.`
does not match a newline; stops at the first unescaped closing quote. -/
def matchStringBody : List Char → Option (List Char × List Char)
  | [] => none
  | c :: rest =>
    if c = '"' then some (['"'], rest)
    else if c = '\\' then
      match rest with
      | [] => none
      | d :: rest2 =>
        if d = '\n' then none
        else (matchStringBody rest2).map (fun p => ('\\' :: d :: p.1, p.2))
    else (matchStringBody rest).map (fun p => (c :: p.1, p.2))

/-- `STRING`: `"(?:\\.|[^"\\])*"`. -/
def matchString : List Char → Option (List Char × List Char)
  | '"' :: rest => (matchStringBody rest).map (fun p => ('"' :: p.1, p.2))
  | _ => none

/-- `CHAR`: `'(?:\\.|[^'\\])'`. -/
def matchCharLit : List Char → Option (List Char × List Char)
  | '\x27' :: c :: rest =>
    if c = '\\' then
      match rest with
      | d :: '\x27' :: rest2 =>
        if d = '\n' then none else some (['\x27', '\\', d, '\x27'], rest2)
      | _ => none
    else
      match rest with
      | '\x27' :: rest2 =>
        if c = '\x27' then none else some (['\x27', c, '\x27'], rest2)
      | _ => none
  | _ => none

/-- `HEX_NUMBER`: `0[xX][0-9a-fA-F]+`. -/
def matchHex : List Char → Option (List Char × List Char)
  | '0' :: x :: rest =>
    if x = 'x' ∨ x = 'X' then
      let s := splitWhile isHexDig rest
      if s.1 = [] then none else some ('0' :: x :: s.1, s.2)
    else none
  | _ => none

/-- `BINARY_NUMBER`: `0[bB][01]+`. -/
def matchBin : List Char → Option (List Char × List Char)
  | '0' :: b :: rest =>
    if b = 'b' ∨ b = 'B' then
      let s := splitWhile isBinDig rest
      if s.1 = [] then none else some ('0' :: b :: s.1, s.2)
    else none
  | _ => none

/-- Optional exponent `(?:[eE][-+]?\d+)?`: returns the consumed exponent and
the remainder (consuming nothing when the group cannot match). -/
def matchExp : List Char → List Char × List Char
  | [] => ([], [])
  | e :: rest =>
    if e = 'e' ∨ e = 'E' then
      match rest with
      | [] => ([], [e])
      | s :: rest2 =>
        if s = '+' ∨ s = '-' then
          let d := splitWhile Char.isDigit rest2
          if d.1 = [] then ([], e :: s :: rest2) else (e :: s :: d.1, d.2)
        else
          let d := splitWhile Char.isDigit rest
          if d.1 = [] then ([], e :: rest) else (e :: d.1, d.2)
    else ([], e :: rest)

/-- `FLOAT_NUMBER`: `(?:\d*\.\d+|\d+\.\d*)(?:[eE][-+]?\d+)?`.  Digits and `.`
are disjoint, so both alternatives reduce to: maximal digit run, a literal
dot, maximal digit run, at least one of the two runs non-empty. -/
def matchFloat (cs : List Char) : Option (List Char × List Char) :=
  let s1 := splitWhile Char.isDigit cs
  match s1.2 with
  | '.' :: r2 =>
    let s2 := splitWhile Char.isDigit r2
    if s1.1 = [] ∧ s2.1 = [] then none
    else
      let ex := matchExp s2.2
      some (s1.1 ++ '.' :: (s2.1 ++ ex.1), ex.2)
  | _ => none

/-- `OCTAL_NUMBER`: `0[0-7]+`. -/
def matchOct : List Char → Option (List Char × List Char)
  | '0' :: rest =>
    let s := splitWhile isOctDig rest
    if s.1 = [] then none else some ('0' :: s.1, s.2)
  | _ => none

/-- `INT_NUMBER`: `\d+`. -/
def matchInt (cs : List Char) : Option (List Char × List Char) :=
  let s := splitWhile Char.isDigit cs
  if s.1 = [] then none else some (s.1, s.2)

def keywordWords : List (List Char) :=
  [['i', 'f'], ['e', 'l', 's', 'e'], ['f', 'o', 'r'], ['w', 'h', 'i', 'l', 'e'],
   ['d', 'o'], ['r', 'e', 't', 'u', 'r', 'n'], ['c', 'l', 'a', 's', 's'],
   ['u', 's', 'i', 'n', 'g'], ['s', 't', 'r', 'u', 'c', 't'],
   ['p', 'u', 'b', 'l', 'i', 'c'],
   ['n', 'a', 'm', 'e', 's', 'p', 'a', 'c', 'e'],
   ['p', 'r', 'i', 'v', 'a', 't', 'e'],
   ['p', 'r', 'o', 't', 'e', 'c', 't', 'e', 'd'],
   ['s', 't', 'a', 't', 'i', 'c'], ['c', 'o', 'n', 's', 't'],
   ['v', 'i', 'r', 't', 'u', 'a', 'l'], ['n', 'e', 'w'],
   ['d', 'e', 'l', 'e', 't', 'e'], ['s', 'i', 'z', 'e', 'o', 'f']]

def typeWords : List (List Char) :=
  [['i', 'n', 't'], ['f', 'l', 'o', 'a', 't'],
   ['d', 'o', 'u', 'b', 'l', 'e'], ['c', 'h', 'a', 'r'],
   ['v', 'o', 'i', 'd'], ['b', 'o', 'o', 'l'], ['l', 'o', 'n', 'g'],
   ['s', 'h', 'o', 'r', 't'], ['s', 'i', 'g', 'n', 'e', 'd'],
   ['u', 'n', 's', 'i', 'g', 'n', 'e', 'd']]

def boolWords : List (List Char) :=
  [['t', 'r', 'u', 'e'], ['f', 'a', 'l', 's', 'e']]

def nullWords : List (List Char) :=
  [['n', 'u', 'l', 'l', 'p', 't', 'r'], ['N', 'U', 'L', 'L']]

/-- `KEYWORD`, `TYPE`, `BOOLEAN`, `NULL`: `\b(w1|...|wn)\b`. -/
def matchWords (ws : List (List Char)) (prev : Option Char) (cs : List Char) :
    Option (List Char × List Char) :=
  if boundaryBefore prev then findWord ws cs else none

def op2Words : List (List Char) :=
  [['+', '+'], ['-', '-'], ['-', '>'], [':', ':'], ['<', '<'], ['>', '>'],
   ['<', '='], ['>', '='], ['=', '='], ['!', '='], ['&', '&'], ['|', '|'],
   ['+', '='], ['-', '='], ['*', '='], ['/', '='], ['%', '=']]

/-- `OPERATOR_2CHAR`: the two-character operator alternation, in order. -/
def matchOp2 (cs : List Char) : Option (List Char × List Char) :=
  findLit op2Words cs

def op1Chars : List Char :=
  ['+', '-', '*', '/', '%', '=', '<', '>', '!', '&', '|', '~', '^']

/-- `OPERATOR_1CHAR`: `[+\-*/%=<>!&|~^]`. -/
def matchOp1 : List Char → Option (List Char × List Char)
  | c :: rest => if c ∈ op1Chars then some ([c], rest) else none
  | [] => none

def symChars : List Char :=
  ['\x7b', '\x7d', '(', ')', '[', ']', ';', ',', '.', ':', '?']

/-- `SYMBOL`: `[{}()\[\];,.:?]`. -/
def matchSym : List Char → Option (List Char × List Char)
  | c :: rest => if c ∈ symChars then some ([c], rest) else none
  | [] => none

/-- `IDENTIFIER`: `[a-zA-Z_]\w*`. -/
def matchIdent : List Char → Option (List Char × List Char)
  | c :: rest =>
    if c.isAlpha || c == '_' then
      let s := splitWhile isWordChar rest
      some (c :: s.1, s.2)
    else none
  | [] => none

/-- `NAMESPACE`: `\w+::\w+`; word characters and `:` are disjoint, so the
greedy `\w+` runs are exact. -/
def matchNS (cs : List Char) : Option (List Char × List Char) :=
  let s1 := splitWhile isWordChar cs
  if s1.1 = [] then none else
  match s1.2 with
  | ':' :: ':' :: r2 =>
    let s2 := splitWhile isWordChar r2
    if s2.1 = [] then none else some (s1.1 ++ ':' :: ':' :: s2.1, s2.2)
  | _ => none

/-- `WHITESPACE`: `\s+`. -/
def matchWS (cs : List Char) : Option (List Char × List Char) :=
  let s := splitWhile isSpaceChar cs
  if s.1 = [] then none else some (s.1, s.2)

/-- The master alternation: the matchers in the declaration order of the
`patterns` dict; the first alternative that matches at the position wins. -/
def masterMatch (prev : Option Char) (cs : List Char) :
    Option (TokType × List Char × List Char) :=
  match matchComment cs with
  | some (l, r) => some (.COMMENT, l, r)
  | none =>
  match matchStdLib (atLineStart prev) cs with
  | some (l, r) => some (.STANDARD_LIBRARY, l, r)
  | none =>
  match matchOwnLib (atLineStart prev) cs with
  | some (l, r) => some (.OWN_LIBRARY, l, r)
  | none =>
  match matchPre (atLineStart prev) cs with
  | some (l, r) => some (.PREPROCESSOR, l, r)
  | none =>
  match matchString cs with
  | some (l, r) => some (.STRING, l, r)
  | none =>
  match matchCharLit cs with
  | some (l, r) => some (.CHAR, l, r)
  | none =>
  match matchHex cs with
  | some (l, r) => some (.HEX_NUMBER, l, r)
  | none =>
  match matchBin cs with
  | some (l, r) => some (.BINARY_NUMBER, l, r)
  | none =>
  match matchFloat cs with
  | some (l, r) => some (.FLOAT_NUMBER, l, r)
  | none =>
  match matchOct cs with
  | some (l, r) => some (.OCTAL_NUMBER, l, r)
  | none =>
  match matchInt cs with
  | some (l, r) => some (.INT_NUMBER, l, r)
  | none =>
  match matchWords keywordWords prev cs with
  | some (l, r) => some (.KEYWORD, l, r)
  | none =>
  match matchWords typeWords prev cs with
  | some (l, r) => some (.TYPE, l, r)
  | none =>
  match matchWords boolWords prev cs with
  | some (l, r) => some (.BOOLEAN, l, r)
  | none =>
  match matchWords nullWords prev cs with
  | some (l, r) => some (.NULL, l, r)
  | none =>
  match matchOp2 cs with
  | some (l, r) => some (.OPERATOR_2CHAR, l, r)
  | none =>
  match matchOp1 cs with
  | some (l, r) => some (.OPERATOR_1CHAR, l, r)
  | none =>
  match matchSym cs with
  | some (l, r) => some (.SYMBOL, l, r)
  | none =>
  match matchIdent cs with
  | some (l, r) => some (.IDENTIFIER, l, r)
  | none =>
  match matchNS cs with
  | some (l, r) => some (.NAMESPACE, l, r)
  | none =>
  match matchWS cs with
  | some (l, r) => some (.WHITESPACE, l, r)
  | none => none

/-! ### The scanner (`tokenize`'s `finditer` loop) -/

/-- `re.finditer` over the master alternation: try the pattern at the current
position; on a match emit the lexeme with its start offset and resume after
it, otherwise silently skip one character.  `prev` is the character just
before the position (for `^` and `\b`); `fuel` bounds the number of steps and
`code.length` is always sufficient (`scanAux_fuel`). -/
def scanAux : Nat → Option Char → List Char → Nat → List Raw
  | 0, _, _, _ => []
  | _ + 1, _, [], _ => []
  | fuel + 1, prev, c :: rest, pos =>
    match masterMatch prev (c :: rest) with
    | some (ty, lex, rem) =>
      ⟨ty, lex, pos⟩ :: scanAux fuel (some (lex.getLastD c)) rem (pos + lex.length)
    | none => scanAux fuel (some c) rest (pos + 1)

/-- All raw matches of the master pattern over the whole input. -/
def scan (code : List Char) : List Raw :=
  scanAux code.length none code 0

/-- `line_starts`: offset `0` plus the offset just after every newline. -/
def lineStartsAux : List Char → Nat → List Nat
  | [], _ => []
  | c :: cs, i =>
    if c = '\n' then (i + 1) :: lineStartsAux cs (i + 1)
    else lineStartsAux cs (i + 1)

def lineStarts (code : List Char) : List Nat :=
  0 :: lineStartsAux code 0

/-- The `while line_num < len(line_starts) and line_starts[line_num] <= start_pos`
loop: walk the entries from index 1, counting those ≤ `pos`. -/
def lineNumAux : List Nat → Nat → Nat → Nat
  | [], _, acc => acc
  | l :: rest, pos, acc =>
    if l ≤ pos then lineNumAux rest pos (acc + 1) else acc

def lineNum (ls : List Nat) (pos : Nat) : Nat :=
  lineNumAux (ls.drop 1) pos 1

/-- Build a `Token` from a raw match: `column = start_pos - current_line_start + 1`. -/
def mkToken (ls : List Nat) (fname : List Char) (r : Raw) : Token :=
  let ln := lineNum ls r.pos
  ⟨r.type, r.value, ln, r.pos - ls.getD (ln - 1) 0 + 1, fname⟩

/-- The raw token sequence appended to `self.tokens` before the merge pass:
every master-pattern match except whitespace, with line/column attached. -/
def rawTokens (code : List Char) (fname : List Char) : List Token :=
  ((scan code).filter (fun r => r.type ≠ TokType.WHITESPACE)).map
    (mkToken (lineStarts code) fname)

/-! ### The diagnostics pass (`find_problems`) -/

def allowed_libs : List (List Char) :=
  [['i', 'o', 's', 't', 'r', 'e', 'a', 'm'],
   ['s', 't', 'l', '_', 'l', 'i', 'b', 'r', 'a', 'r', 'y', '.', 'p', 'y'],
   ['s', 't', 'd', 'i', 'o', '.', 'h']]

def restricted_funcs : List (List Char × List Char) :=
  [(['p', 'r', 'i', 'n', 't', 'f'],
    ['S', 'T', 'L', 'L', 'i', 'b', 'r', 'a', 'r', 'y', '.', 'p', 'r', 'i', 'n', 't', 'f', '(', ')']),
   (['s', 'c', 'a', 'n', 'f'],
    ['S', 'T', 'L', 'L', 'i', 'b', 'r', 'a', 'r', 'y', '.', 's', 'c', 'a', 'n', 'f', '(', ')']),
   (['m', 'a', 'l', 'l', 'o', 'c'],
    ['S', 'T', 'L', 'L', 'i', 'b', 'r', 'a', 'r', 'y', '.', 'm', 'a', 'l', 'l', 'o', 'c', '(', ')']),
   (['f', 'r', 'e', 'e'],
    ['S', 'T', 'L', 'L', 'i', 'b', 'r', 'a', 'r', 'y', '.', 'f', 'r', 'e', 'e', '(', ')'])]

/-- Body of `re.search(r'[<"]([^>"]+)[>"]', value)` at one start position:
an opener, at least one character that is neither `>` nor `"`, and a closer;
returns the captured group. -/
def libRefAt : List Char → Option (List Char)
  | c :: rest =>
    if c = '<' ∨ c = '"' then
      let s := splitWhile (fun d => !(d == '>') && !(d == '"')) rest
      match s.1, s.2 with
      | _ :: _, t :: _ => if t = '>' ∨ t = '"' then some s.1 else none
      | _, _ => none
    else none
  | [] => none

/-- `re.search`: the body pattern at the first start position where it
matches. -/
def libRef : List Char → Option (List Char)
  | [] => none
  | c :: rest =>
    match libRefAt (c :: rest) with
    | some lib => some lib
    | none => libRef rest

/-- Association lookup in `restricted_funcs`. -/
def lookupFunc : List (List Char × List Char) → List Char → Option (List Char)
  | [], _ => none
  | (k, v) :: rest, n => if k = n then some v else lookupFunc rest n

/-- `', '.join(allowed_libs)` (the set literal is modelled in written order). -/
def joinComma : List (List Char) → List Char
  | [] => []
  | [x] => x
  | x :: xs => x ++ ',' :: ' ' :: joinComma xs

/-- `value.split('::')[-1]`: the last segment of the leftmost-scanning split
on `::`. -/
def lastColonSeg : List Char → List Char
  | [] => []
  | ':' :: ':' :: rest => lastColonSeg rest
  | c :: rest =>
    if hasSubstr [':', ':'] rest then lastColonSeg rest else c :: rest

def unauthorizedMsg : List Char :=
  ['U', 'n', 'a', 'u', 't', 'h', 'o', 'r', 'i', 'z', 'e', 'd', ' ',
   'l', 'i', 'b', 'r', 'a', 'r', 'y', ':', ' ']

def allowedMsg : List Char :=
  ['A', 'l', 'l', 'o', 'w', 'e', 'd', ':', ' ']

def funcMacroMsg : List Char :=
  ['F', 'u', 'n', 'c', 't', 'i', 'o', 'n', '-', 'l', 'i', 'k', 'e', ' ',
   'm', 'a', 'c', 'r', 'o', ':', ' ']

def constMacroMsg : List Char :=
  ['C', 'o', 'n', 's', 't', 'a', 'n', 't', ' ',
   'm', 'a', 'c', 'r', 'o', ':', ' ']

def useConstexprFuncs : List Char :=
  ['U', 's', 'e', ' ', 'c', 'o', 'n', 's', 't', 'e', 'x', 'p', 'r', ' ',
   'f', 'u', 'n', 'c', 't', 'i', 'o', 'n', 's', ' ',
   'i', 'n', 's', 't', 'e', 'a', 'd']

def useConstexprVars : List Char :=
  ['U', 's', 'e', ' ', 'c', 'o', 'n', 's', 't', 'e', 'x', 'p', 'r', ' ',
   'v', 'a', 'r', 'i', 'a', 'b', 'l', 'e', 's', ' ',
   'i', 'n', 's', 't', 'e', 'a', 'd']

def directCallMsg : List Char :=
  ['D', 'i', 'r', 'e', 'c', 't', ' ', 'c', 'a', 'l', 'l', ' ', 't', 'o', ' ']

def useWord : List Char := ['U', 's', 'e', ' ']

def insteadWord : List Char := [' ', 'i', 'n', 's', 't', 'e', 'a', 'd']

def usingStdMsg : List Char :=
  ['U', 's', 'i', 'n', 'g', ' ', 's', 't', 'd', ':', ':']

def learningMsg : List Char :=
  ['L', 'e', 'a', 'r', 'n', 'i', 'n', 'g', ':', ' ',
   'C', 'r', 'e', 'a', 't', 'e', ' ', 'y', 'o', 'u', 'r', ' ',
   'o', 'w', 'n', ' ']

def implWord : List Char :=
  [' ', 'i', 'm', 'p', 'l', 'e', 'm', 'e', 'n', 't', 'a', 't', 'i', 'o', 'n']

def defineWord : List Char := ['d', 'e', 'f', 'i', 'n', 'e']

def stdColons : List Char := ['s', 't', 'd', ':', ':']

/-- `find_problems`: the elif chain of the four diagnostic rules; returns the
problems appended to the tracker for this token (zero or one). -/
def find_problems (t : Token) : List Problem :=
  if t.type = TokType.PREPROCESSOR ∧ hasSubstr includeWord t.value then
    match libRef t.value with
    | some lib =>
      if lib ∈ allowed_libs then []
      else [⟨t.line, unauthorizedMsg ++ lib, allowedMsg ++ joinComma allowed_libs⟩]
    | none => []
  else if t.type = TokType.PREPROCESSOR ∧ hasSubstr defineWord t.value then
    if '(' ∈ t.value then
      [⟨t.line, funcMacroMsg ++ t.value, useConstexprFuncs⟩]
    else
      [⟨t.line, constMacroMsg ++ t.value, useConstexprVars⟩]
  else if t.type = TokType.IDENTIFIER ∧ '(' ∈ t.value then
    let fn := t.value.takeWhile (fun c => !(c == '('))
    match lookupFunc restricted_funcs fn with
    | some repl =>
      [⟨t.line, directCallMsg ++ fn ++ ['(', ')'], useWord ++ repl ++ insteadWord⟩]
    | none => []
  else if t.type = TokType.NAMESPACE ∧ hasSubstr stdColons t.value then
    let algo := lastColonSeg t.value
    [⟨t.line, usingStdMsg ++ algo, learningMsg ++ algo ++ implWord⟩]
  else []

/-- The populated problem collector for one `tokenize` call: `find_problems`
invoked on each raw (non-whitespace) token in scan order. -/
def tokenizeProblems (code : List Char) (fname : List Char) : List Problem :=
  (rawTokens code fname).flatMap find_problems

/-! ### The merge pass (`combine_function_calls`) -/

/-- The inner `while i < len(tokens) and paren_count > 0` loop: consume a
token, append its value, then adjust the depth (`(` increments, `)`
decrements); returns the consumed values and the remaining tokens. -/
def collectCall : List Token → Nat → List (List Char) × List Token
  | ts, 0 => ([], ts)
  | [], _ + 1 => ([], [])
  | t :: rest, d + 1 =>
    let d' := if t.value = ['('] then d + 2
              else if t.value = [')'] then d else d + 1
    let vr := collectCall rest d'
    (t.value :: vr.1, vr.2)

/-- One outer-loop traversal of `combine_function_calls`: when an
`IDENTIFIER` token is immediately followed by a `SYMBOL` token `(`, fold the
balanced-parenthesis span (or whatever remains of the stream) into one
`FUNCTION_CALL` token carrying the identifier's position; otherwise pass the
token through.  `fuel` bounds the number of outer-loop iterations; each
iteration consumes at least one token, so `tokens.length` is sufficient. -/
def combineAux : Nat → List Token → List Token
  | 0, _ => []
  | _ + 1, [] => []
  | fuel + 1, t :: rest =>
    match rest with
    | [] => [t]
    | p :: rest2 =>
      if t.type = TokType.IDENTIFIER ∧ p.type = TokType.SYMBOL ∧ p.value = ['('] then
        let vr := collectCall rest2 1
        ⟨TokType.FUNCTION_CALL, t.value ++ p.value ++ vr.1.flatten,
          t.line, t.column, t.filename⟩ :: combineAux fuel vr.2
      else t :: combineAux fuel (p :: rest2)

def combine_function_calls (tokens : List Token) : List Token :=
  combineAux tokens.length tokens

/-- `tokenize`: the final token list (scan, skip whitespace, then merge). -/
def tokenize (code : List Char) (fname : List Char) : List Token :=
  combine_function_calls (rawTokens code fname)

/-- `True` when some `IDENTIFIER` token is immediately followed by a
`SYMBOL` token `(` — the merge trigger adjacency. -/
def hasAdj : List Token → Bool
  | t :: p :: rest =>
    (decide (t.type = TokType.IDENTIFIER) &&
     decide (p.type = TokType.SYMBOL) && decide (p.value = ['('])) ||
    hasAdj (p :: rest)
  | _ => false

/-- Lexicographic order on `(line, column)`. -/
def lexLe (a b : Token) : Prop :=
  a.line < b.line ∨ (a.line = b.line ∧ a.column ≤ b.column)

/-- Disjoint source spans: the span of `a` ends at or before `b` starts. -/
def spanLe (a b : Raw) : Prop :=
  a.pos + a.value.length ≤ b.pos

/-- Every raw match starts at or after `p`, and each match starts at or after
the end of the previous one. -/
def ChainedFrom : Nat → List Raw → Prop
  | _, [] => True
  | p, r :: rs => p ≤ r.pos ∧ ChainedFrom (r.pos + r.value.length) rs

/-! ### Lemmas about the merge pass -/

theorem combineAux_head (f : Nat) (p : Token) (l : List Token) :
    (combineAux f (p :: l)).head? = none ∨ (combineAux f (p :: l)).head? = some p ∨
    ∃ tk, (combineAux f (p :: l)).head? = some tk ∧ tk.type = TokType.FUNCTION_CALL := by
  cases f with
  | zero => left; rfl
  | succ f =>
    cases l with
    | nil => right; left; rfl
    | cons q l2 =>
      by_cases h : p.type = TokType.IDENTIFIER ∧ q.type = TokType.SYMBOL ∧ q.value = ['(']
      · right; right
        refine ⟨⟨TokType.FUNCTION_CALL, p.value ++ q.value ++ (collectCall l2 1).1.flatten,
          p.line, p.column, p.filename⟩, ?_, rfl⟩
        simp [combineAux, h]
      · right; left
        simp [combineAux, h]

theorem hasAdj_combineAux : ∀ fuel ts, hasAdj (combineAux fuel ts) = false := by
  intro fuel
  induction fuel with
  | zero => intro ts; rfl
  | succ fuel ih =>
    intro ts
    cases ts with
    | nil => rfl
    | cons t rest =>
      cases rest with
      | nil => rfl
      | cons p rest2 =>
        by_cases h : t.type = TokType.IDENTIFIER ∧ p.type = TokType.SYMBOL ∧ p.value = ['(']
        · simp only [combineAux, h, if_pos]
          cases hL : combineAux fuel (collectCall rest2 1).2 with
          | nil => rfl
          | cons u L2 =>
            have hadj := ih (collectCall rest2 1).2
            rw [hL] at hadj
            simp [hasAdj, hadj]
        · simp only [combineAux, h, if_neg, not_false_eq_true]
          rcases combineAux_head fuel p rest2 with hh | hh | ⟨tk, hh, htk⟩
          · rw [List.head?_eq_none_iff] at hh
            rw [hh]
            rfl
          · cases hL : combineAux fuel (p :: rest2) with
            | nil => rfl
            | cons u L2 =>
              rw [hL] at hh
              simp only [List.head?_cons, Option.some.injEq] at hh
              subst hh
              have hadj := ih (u :: rest2)
              rw [hL] at hadj
              simp only [hasAdj, hadj, Bool.or_false]
              rcases not_and_or.mp h with h1 | h1
              · simp [h1]
              · rcases not_and_or.mp h1 with h2 | h2 <;> simp [h2]
          · cases hL : combineAux fuel (p :: rest2) with
            | nil => rfl
            | cons u L2 =>
              rw [hL] at hh
              simp only [List.head?_cons, Option.some.injEq] at hh
              subst hh
              have hadj := ih (p :: rest2)
              rw [hL] at hadj
              simp [hasAdj, hadj, htk]

theorem combineAux_fixed : ∀ fuel ts, ts.length ≤ fuel → hasAdj ts = false →
    combineAux fuel ts = ts := by
  intro fuel
  induction fuel with
  | zero =>
    intro ts hlen _
    have hts : ts = [] := List.eq_nil_of_length_eq_zero (Nat.le_zero.mp hlen)
    subst hts; rfl
  | succ fuel ih =>
    intro ts hlen hadj
    cases ts with
    | nil => rfl
    | cons t rest =>
      cases rest with
      | nil => rfl
      | cons p rest2 =>
        have hntr : ¬(t.type = TokType.IDENTIFIER ∧ p.type = TokType.SYMBOL ∧
            p.value = ['(']) := by
          intro hc
          simp [hasAdj, hc.1, hc.2.1, hc.2.2] at hadj
        simp only [combineAux, hntr, if_neg, not_false_eq_true]
        have htail : hasAdj (p :: rest2) = false := by
          simp only [hasAdj, Bool.or_eq_false_iff] at hadj
          exact hadj.2
        rw [ih (p :: rest2) (by simpa using Nat.le_of_succ_le_succ hlen) htail]

/-! ### Lemmas about the scanner -/

theorem splitWhile_all (p : Char → Bool) :
    ∀ l, ∀ c ∈ (splitWhile p l).1, p c = true := by
  intro l
  induction l with
  | nil => intro c hc; simp [splitWhile] at hc
  | cons a as ih =>
    intro c hc
    by_cases ha : p a
    · simp only [splitWhile, ha, if_pos] at hc
      rcases List.mem_cons.mp hc with rfl | hc
      · exact ha
      · exact ih c hc
    · simp [splitWhile, ha] at hc

theorem matchIdent_no_paren {cs lex rem : List Char}
    (h : matchIdent cs = some (lex, rem)) : '(' ∉ lex := by
  cases cs with
  | nil => simp [matchIdent] at h
  | cons c rest =>
    by_cases hc : (c.isAlpha || c == '_') = true
    · simp only [matchIdent, hc, if_pos, Option.some.injEq, Prod.mk.injEq] at h
      obtain ⟨h1, -⟩ := h
      subst h1
      intro hmem
      rcases List.mem_cons.mp hmem with hh | hh
      · rw [← hh] at hc
        exact absurd hc (by decide)
      · have hw := splitWhile_all isWordChar rest _ hh
        exact absurd hw (by decide)
    · simp [matchIdent, hc] at h

/-- If the master alternation classifies a match as `IDENTIFIER`, the match
came from the `IDENTIFIER` matcher. -/
theorem masterMatch_ident {prev : Option Char} {cs lex rem : List Char}
    (h : masterMatch prev cs = some (TokType.IDENTIFIER, lex, rem)) :
    matchIdent cs = some (lex, rem) := by
  unfold masterMatch at h
  repeat' split at h
  all_goals simp_all

theorem scanAux_ident : ∀ fuel prev cs pos, ∀ r ∈ scanAux fuel prev cs pos,
    r.type = TokType.IDENTIFIER → '(' ∉ r.value := by
  intro fuel
  induction fuel with
  | zero => intro prev cs pos r hr; simp [scanAux] at hr
  | succ fuel ih =>
    intro prev cs pos r hr hty
    cases cs with
    | nil => simp [scanAux] at hr
    | cons c rest =>
      rcases hm : masterMatch prev (c :: rest) with _ | ⟨ty, lex, rem⟩
      · rw [scanAux, hm] at hr
        exact ih _ _ _ r hr hty
      · rw [scanAux, hm] at hr
        rcases List.mem_cons.mp hr with rfl | hr
        · have hty' : ty = TokType.IDENTIFIER := hty
          subst hty'
          exact matchIdent_no_paren (masterMatch_ident hm)
        · exact ih _ _ _ r hr hty

/-- Raw non-whitespace tokens inherit category and lexeme from scan matches. -/
theorem rawTokens_shape {code fname : List Char} {t : Token}
    (ht : t ∈ rawTokens code fname) :
    ∃ r ∈ scan code, r.type ≠ TokType.WHITESPACE ∧
      t.type = r.type ∧ t.value = r.value := by
  simp only [rawTokens, List.mem_map, List.mem_filter] at ht
  obtain ⟨r, ⟨hr, hty⟩, rfl⟩ := ht
  exact ⟨r, hr, by simpa using hty, rfl, rfl⟩

/-! ### Soundness of the matchers: a match is a non-empty prefix of the input

These lemmas show each matcher returns a decomposition of its input — the
lexeme is the literal consumed prefix — and never matches the empty string,
which is what makes `code.length` a sufficient fuel for the scan loop. -/

theorem splitWhile_append (p : Char → Bool) :
    ∀ l, (splitWhile p l).1 ++ (splitWhile p l).2 = l := by
  intro l
  induction l with
  | nil => rfl
  | cons c cs ih => by_cases h : p c <;> simp [splitWhile, h, ih]

theorem stripLit_append : ∀ (w cs r : List Char), stripLit w cs = some r →
    w ++ r = cs := by
  intro w
  induction w with
  | nil =>
    intro cs r h
    simp only [stripLit, Option.some.injEq] at h
    simp [h]
  | cons a as ih =>
    intro cs r h
    cases cs with
    | nil => exact absurd h (by simp [stripLit])
    | cons c cs2 =>
      by_cases hac : a = c
      · subst hac
        simp only [stripLit, if_pos] at h
        simp [ih cs2 r h]
      · simp [stripLit, hac] at h

theorem findWord_sound : ∀ (ws : List (List Char)) (cs w r : List Char),
    findWord ws cs = some (w, r) → w ∈ ws ∧ w ++ r = cs := by
  intro ws
  induction ws with
  | nil => intro cs w r h; simp [findWord] at h
  | cons x xs ih =>
    intro cs w r h
    simp only [findWord] at h
    rcases hs : stripLit x cs with _ | rest
    · rw [hs] at h
      obtain ⟨hm, ha⟩ := ih cs w r h
      exact ⟨List.mem_cons_of_mem _ hm, ha⟩
    · rw [hs] at h
      by_cases hb : boundaryAfter rest = true
      · simp only [hb, if_pos, Option.some.injEq, Prod.mk.injEq] at h
        obtain ⟨rfl, rfl⟩ := h
        exact ⟨List.mem_cons_self _ _, stripLit_append _ _ _ hs⟩
      · simp only [hb, if_neg, Bool.not_eq_true, not_false_eq_true] at h
        obtain ⟨hm, ha⟩ := ih cs w r h
        exact ⟨List.mem_cons_of_mem _ hm, ha⟩

theorem findLit_sound : ∀ (ws : List (List Char)) (cs w r : List Char),
    findLit ws cs = some (w, r) → w ∈ ws ∧ w ++ r = cs := by
  intro ws
  induction ws with
  | nil => intro cs w r h; simp [findLit] at h
  | cons x xs ih =>
    intro cs w r h
    simp only [findLit] at h
    rcases hs : stripLit x cs with _ | rest
    · rw [hs] at h
      obtain ⟨hm, ha⟩ := ih cs w r h
      exact ⟨List.mem_cons_of_mem _ hm, ha⟩
    · rw [hs] at h
      simp only [Option.some.injEq, Prod.mk.injEq] at h
      obtain ⟨rfl, rfl⟩ := h
      exact ⟨List.mem_cons_self _ _, stripLit_append _ _ _ hs⟩

theorem findCommentEnd_sound : ∀ (cs b r : List Char),
    findCommentEnd cs = some (b, r) → b ≠ [] ∧ b ++ r = cs := by
  intro cs
  induction cs with
  | nil => intro b r h; simp [findCommentEnd] at h
  | cons c rest ih =>
    intro b r h
    by_cases hc : c = '*' ∧ rest.head? = some '/'
    · simp only [findCommentEnd, hc, if_pos, Option.some.injEq, Prod.mk.injEq] at h
      obtain ⟨rfl, rfl⟩ := h
      obtain ⟨hcs, hh⟩ := hc
      subst hcs
      cases rest with
      | nil => simp at hh
      | cons d t =>
        simp only [List.head?_cons, Option.some.injEq] at hh
        subst hh
        exact ⟨by simp, rfl⟩
    · simp only [findCommentEnd, hc, if_neg, not_false_eq_true] at h
      rcases hf : findCommentEnd rest with _ | ⟨b2, r2⟩
      · rw [hf] at h; simp at h
      · rw [hf] at h
        simp at h
        obtain ⟨rfl, rfl⟩ := h
        obtain ⟨-, ha⟩ := ih b2 r2 hf
        exact ⟨by simp, by simp [ha]⟩

theorem matchStringBody_sound_aux : ∀ (n : Nat) (cs b r : List Char),
    cs.length ≤ n → matchStringBody cs = some (b, r) → b ≠ [] ∧ b ++ r = cs := by
  intro n
  induction n with
  | zero =>
    intro cs b r hn h
    have hcs : cs = [] := List.eq_nil_of_length_eq_zero (Nat.le_zero.mp hn)
    subst hcs
    simp [matchStringBody] at h
  | succ n ih =>
    intro cs b r hn h
    cases cs with
    | nil => simp [matchStringBody] at h
    | cons c rest =>
      rw [matchStringBody.eq_def] at h
      by_cases hq : c = '"'
      · simp only [hq, if_pos] at h
        simp at h
        obtain ⟨rfl, rfl⟩ := h
        exact ⟨by simp, by simp [hq]⟩
      · by_cases hb : c = '\\'
        · subst hb
          cases rest with
          | nil => simp [hq] at h
          | cons d rest2 =>
            by_cases hd : d = '\n'
            · simp [hq, hd] at h
            · rcases hf : matchStringBody rest2 with _ | ⟨b2, r2⟩
              · simp [hq, hd, hf] at h
              · simp [hq, hd, hf] at h
                obtain ⟨rfl, rfl⟩ := h
                have hlen : rest2.length ≤ n := by
                  simp only [List.length_cons] at hn
                  omega
                exact ⟨by simp, by simp [(ih rest2 b2 r2 hlen hf).2]⟩
        · rcases hf : matchStringBody rest with _ | ⟨b2, r2⟩
          · simp [hq, hb, hf] at h
          · simp [hq, hb, hf] at h
            obtain ⟨rfl, rfl⟩ := h
            have hlen : rest.length ≤ n := by
              simp only [List.length_cons] at hn
              omega
            exact ⟨by simp, by simp [(ih rest b2 r2 hlen hf).2]⟩

theorem matchStringBody_sound {cs b r : List Char}
    (h : matchStringBody cs = some (b, r)) : b ≠ [] ∧ b ++ r = cs :=
  matchStringBody_sound_aux cs.length cs b r le_rfl h

theorem matchExp_append : ∀ l, (matchExp l).1 ++ (matchExp l).2 = l := by
  intro l
  cases l with
  | nil => rfl
  | cons e rest =>
    by_cases he : e = 'e' ∨ e = 'E'
    · cases rest with
      | nil => simp [matchExp, he]
      | cons s rest2 =>
        by_cases hs : s = '+' ∨ s = '-'
        · by_cases hd : (splitWhile Char.isDigit rest2).1 = []
          · simp [matchExp, he, hs, hd]
          · simp [matchExp, he, hs, hd, splitWhile_append]
        · by_cases hd : (splitWhile Char.isDigit (s :: rest2)).1 = []
          · simp [matchExp, he, hs, hd]
          · simp [matchExp, he, hs, hd, splitWhile_append]
    · simp [matchExp, he]

theorem matchComment_sound {cs l r : List Char}
    (h : matchComment cs = some (l, r)) : l ≠ [] ∧ l ++ r = cs := by
  rw [matchComment.eq_def] at h
  split at h
  · simp at h
    obtain ⟨rfl, rfl⟩ := h
    exact ⟨by simp, by simp [splitWhile_append]⟩
  · rcases hf : findCommentEnd _ with _ | ⟨b2, r2⟩
    · rw [hf] at h; simp at h
    · rw [hf] at h
      simp at h
      obtain ⟨rfl, rfl⟩ := h
      exact ⟨by simp, by simp [(findCommentEnd_sound _ _ _ hf).2]⟩
  · exact absurd h (by simp)

theorem matchStdLib_sound {ls : Bool} {cs l r : List Char}
    (h : matchStdLib ls cs = some (l, r)) : l ≠ [] ∧ l ++ r = cs := by
  unfold matchStdLib at h
  dsimp only at h
  repeat' split at h
  all_goals try exact Option.noConfusion h
  rename_i x1 r2 heq1 x2 r4 heq2 x3 r6 heq3 x4 x5 hd tl r8 heq4 heq5
  simp only [Option.some.injEq, Prod.mk.injEq] at h
  obtain ⟨rfl, rfl⟩ := h
  refine ⟨by simp, ?_⟩
  conv_rhs => rw [← splitWhile_append isSpaceChar cs, heq1,
    ← splitWhile_append isSpaceChar r2, ← stripLit_append _ _ _ heq2,
    ← splitWhile_append isSpaceChar r4, heq3,
    ← splitWhile_append (fun c => !(c == '>')) r6, heq5]
  simp

theorem matchOwnLib_sound {ls : Bool} {cs l r : List Char}
    (h : matchOwnLib ls cs = some (l, r)) : l ≠ [] ∧ l ++ r = cs := by
  unfold matchOwnLib at h
  dsimp only at h
  repeat' split at h
  all_goals try exact Option.noConfusion h
  rename_i x1 r2 heq1 x2 r4 heq2 x3 r6 heq3 x4 x5 hd tl r8 heq4 heq5
  simp only [Option.some.injEq, Prod.mk.injEq] at h
  obtain ⟨rfl, rfl⟩ := h
  refine ⟨by simp, ?_⟩
  conv_rhs => rw [← splitWhile_append isSpaceChar cs, heq1,
    ← splitWhile_append isSpaceChar r2, ← stripLit_append _ _ _ heq2,
    ← splitWhile_append isSpaceChar r4, heq3,
    ← splitWhile_append (fun c => !(c == '"')) r6, heq5]
  simp

theorem matchPre_sound {ls : Bool} {cs l r : List Char}
    (h : matchPre ls cs = some (l, r)) : l ≠ [] ∧ l ++ r = cs := by
  unfold matchPre at h
  dsimp only at h
  repeat' split at h
  all_goals try exact Option.noConfusion h
  rename_i x1 r2 heq1 x2 d r4 heq2
  simp only [Option.some.injEq, Prod.mk.injEq] at h
  obtain ⟨rfl, rfl⟩ := h
  refine ⟨by simp, ?_⟩
  conv_rhs => rw [← splitWhile_append isSpaceChar cs, heq1,
    ← splitWhile_append isSpaceChar r2, ← (findWord_sound _ _ _ _ heq2).2,
    ← splitWhile_append (fun c => !(c == '\n')) r4]
  simp

theorem matchString_sound {cs l r : List Char}
    (h : matchString cs = some (l, r)) : l ≠ [] ∧ l ++ r = cs := by
  rw [matchString.eq_def] at h
  split at h
  · rcases hf : matchStringBody _ with _ | ⟨b2, r2⟩
    · rw [hf] at h; simp at h
    · rw [hf] at h
      simp at h
      obtain ⟨rfl, rfl⟩ := h
      exact ⟨by simp, by simp [(matchStringBody_sound hf).2]⟩
  · exact Option.noConfusion h

theorem matchCharLit_sound {cs l r : List Char}
    (h : matchCharLit cs = some (l, r)) : l ≠ [] ∧ l ++ r = cs := by
  rw [matchCharLit.eq_def] at h
  repeat' split at h
  all_goals try exact Option.noConfusion h
  all_goals simp at h
  all_goals obtain ⟨rfl, rfl⟩ := h
  all_goals exact ⟨by simp, by simp_all⟩

theorem matchHex_sound {cs l r : List Char}
    (h : matchHex cs = some (l, r)) : l ≠ [] ∧ l ++ r = cs := by
  rw [matchHex.eq_def] at h
  dsimp only at h
  repeat' split at h
  all_goals try exact Option.noConfusion h
  simp at h
  obtain ⟨rfl, rfl⟩ := h
  exact ⟨by simp, by simp [splitWhile_append]⟩

theorem matchBin_sound {cs l r : List Char}
    (h : matchBin cs = some (l, r)) : l ≠ [] ∧ l ++ r = cs := by
  rw [matchBin.eq_def] at h
  dsimp only at h
  repeat' split at h
  all_goals try exact Option.noConfusion h
  simp at h
  obtain ⟨rfl, rfl⟩ := h
  exact ⟨by simp, by simp [splitWhile_append]⟩

theorem matchFloat_sound {cs l r : List Char}
    (h : matchFloat cs = some (l, r)) : l ≠ [] ∧ l ++ r = cs := by
  unfold matchFloat at h
  dsimp only at h
  repeat' split at h
  all_goals try exact Option.noConfusion h
  rename_i x1 r2 heq1 hne
  simp only [Option.some.injEq, Prod.mk.injEq] at h
  obtain ⟨rfl, rfl⟩ := h
  refine ⟨by simp, ?_⟩
  conv_rhs => rw [← splitWhile_append Char.isDigit cs, heq1,
    ← splitWhile_append Char.isDigit r2,
    ← matchExp_append (splitWhile Char.isDigit r2).2]
  simp

theorem matchOct_sound {cs l r : List Char}
    (h : matchOct cs = some (l, r)) : l ≠ [] ∧ l ++ r = cs := by
  rw [matchOct.eq_def] at h
  dsimp only at h
  repeat' split at h
  all_goals try exact Option.noConfusion h
  simp at h
  obtain ⟨rfl, rfl⟩ := h
  exact ⟨by simp, by simp [splitWhile_append]⟩

theorem matchInt_sound {cs l r : List Char}
    (h : matchInt cs = some (l, r)) : l ≠ [] ∧ l ++ r = cs := by
  unfold matchInt at h
  dsimp only at h
  split at h
  · exact Option.noConfusion h
  · injection h with h2
    have h3 : (splitWhile Char.isDigit cs).1 = l := congrArg Prod.fst h2
    have h4 : (splitWhile Char.isDigit cs).2 = r := congrArg Prod.snd h2
    subst h3
    subst h4
    exact ⟨by simp_all, splitWhile_append _ _⟩

theorem matchWords_sound {ws : List (List Char)} {prev : Option Char}
    {cs l r : List Char} (h : matchWords ws prev cs = some (l, r))
    (hw : ∀ w ∈ ws, w ≠ []) : l ≠ [] ∧ l ++ r = cs := by
  unfold matchWords at h
  split at h
  · obtain ⟨hm, ha⟩ := findWord_sound _ _ _ _ h
    exact ⟨hw _ hm, ha⟩
  · exact Option.noConfusion h

theorem matchOp2_sound {cs l r : List Char}
    (h : matchOp2 cs = some (l, r)) : l ≠ [] ∧ l ++ r = cs := by
  obtain ⟨hm, ha⟩ := findLit_sound _ _ _ _ h
  have hw : ∀ w ∈ op2Words, w ≠ [] := by decide
  exact ⟨hw _ hm, ha⟩

theorem matchOp1_sound {cs l r : List Char}
    (h : matchOp1 cs = some (l, r)) : l ≠ [] ∧ l ++ r = cs := by
  rw [matchOp1.eq_def] at h
  repeat' split at h
  all_goals try exact Option.noConfusion h
  simp at h
  obtain ⟨rfl, rfl⟩ := h
  exact ⟨by simp, rfl⟩

theorem matchSym_sound {cs l r : List Char}
    (h : matchSym cs = some (l, r)) : l ≠ [] ∧ l ++ r = cs := by
  rw [matchSym.eq_def] at h
  repeat' split at h
  all_goals try exact Option.noConfusion h
  simp at h
  obtain ⟨rfl, rfl⟩ := h
  exact ⟨by simp, rfl⟩

theorem matchIdent_sound {cs l r : List Char}
    (h : matchIdent cs = some (l, r)) : l ≠ [] ∧ l ++ r = cs := by
  rw [matchIdent.eq_def] at h
  dsimp only at h
  repeat' split at h
  all_goals try exact Option.noConfusion h
  simp at h
  obtain ⟨rfl, rfl⟩ := h
  exact ⟨by simp, by simp [splitWhile_append]⟩

theorem matchNS_sound {cs l r : List Char}
    (h : matchNS cs = some (l, r)) : l ≠ [] ∧ l ++ r = cs := by
  unfold matchNS at h
  dsimp only at h
  repeat' split at h
  all_goals try exact Option.noConfusion h
  rename_i hne1 x1 r2 heq1 hne2
  simp only [Option.some.injEq, Prod.mk.injEq] at h
  obtain ⟨rfl, rfl⟩ := h
  refine ⟨by simp, ?_⟩
  conv_rhs => rw [← splitWhile_append isWordChar cs, heq1,
    ← splitWhile_append isWordChar r2]
  simp

theorem matchWS_sound {cs l r : List Char}
    (h : matchWS cs = some (l, r)) : l ≠ [] ∧ l ++ r = cs := by
  unfold matchWS at h
  dsimp only at h
  split at h
  · exact Option.noConfusion h
  · injection h with h2
    have h3 : (splitWhile isSpaceChar cs).1 = l := congrArg Prod.fst h2
    have h4 : (splitWhile isSpaceChar cs).2 = r := congrArg Prod.snd h2
    subst h3
    subst h4
    exact ⟨by simp_all, splitWhile_append _ _⟩

/-- A master-pattern match is a non-empty prefix of the input: the lexeme
concatenated with the returned remainder is exactly the input. -/
theorem masterMatch_sound {prev : Option Char} {cs : List Char}
    {ty : TokType} {lex rem : List Char}
    (h : masterMatch prev cs = some (ty, lex, rem)) :
    lex ≠ [] ∧ lex ++ rem = cs := by
  unfold masterMatch at h
  repeat' split at h
  all_goals try exact Option.noConfusion h
  all_goals simp only [Option.some.injEq, Prod.mk.injEq] at h
  all_goals obtain ⟨-, rfl, rfl⟩ := h
  all_goals first
    | exact matchComment_sound ‹_›
    | exact matchStdLib_sound ‹_›
    | exact matchOwnLib_sound ‹_›
    | exact matchPre_sound ‹_›
    | exact matchString_sound ‹_›
    | exact matchCharLit_sound ‹_›
    | exact matchHex_sound ‹_›
    | exact matchBin_sound ‹_›
    | exact matchFloat_sound ‹_›
    | exact matchOct_sound ‹_›
    | exact matchInt_sound ‹_›
    | exact matchWords_sound ‹_› (by decide)
    | exact matchOp2_sound ‹_›
    | exact matchOp1_sound ‹_›
    | exact matchSym_sound ‹_›
    | exact matchIdent_sound ‹_›
    | exact matchNS_sound ‹_›
    | exact matchWS_sound ‹_›

/-! ### The fuel bounds are sufficient

Every master-pattern match consumes at least one character and every
outer-loop iteration of the merge pass consumes at least one token, so the
fuels `code.length` and `tokens.length` used in `scan` and
`combine_function_calls` never run out: any larger fuel yields the same
result, i.e. the fuel is a pure termination device, not a semantic bound. -/

theorem scanAux_fuel : ∀ (f1 : Nat) (prev : Option Char) (cs : List Char)
    (pos : Nat), cs.length ≤ f1 → ∀ f2, cs.length ≤ f2 →
    scanAux f1 prev cs pos = scanAux f2 prev cs pos := by
  intro f1
  induction f1 with
  | zero =>
    intro prev cs pos h1 f2 h2
    have hcs : cs = [] := List.eq_nil_of_length_eq_zero (Nat.le_zero.mp h1)
    subst hcs
    cases f2 <;> rfl
  | succ f1 ih =>
    intro prev cs pos h1 f2 h2
    cases cs with
    | nil => cases f2 <;> rfl
    | cons c rest =>
      cases f2 with
      | zero => simp at h2
      | succ f2 =>
        have h1' : rest.length + 1 ≤ f1 + 1 := by simpa using h1
        have h2' : rest.length + 1 ≤ f2 + 1 := by simpa using h2
        rcases hm : masterMatch prev (c :: rest) with _ | ⟨ty, lex, rem⟩
        · rw [scanAux, hm, scanAux, hm]
          exact ih (some c) rest (pos + 1) (by omega) f2 (by omega)
        · rw [scanAux, hm, scanAux, hm]
          obtain ⟨hne, happ⟩ := masterMatch_sound hm
          have hlen : lex.length + rem.length = rest.length + 1 := by
            have := congrArg List.length happ
            simpa using this
          have hlex : 1 ≤ lex.length := by
            cases lex with
            | nil => exact absurd rfl hne
            | cons a b => simp
          exact congrArg (List.cons _)
            (ih (some (lex.getLastD c)) rem (pos + lex.length) (by omega) f2 (by omega))

/-- Any fuel at least `code.length` computes exactly `scan code`. -/
theorem scan_fuel (code : List Char) (fuel : Nat) (h : code.length ≤ fuel) :
    scanAux fuel none code 0 = scan code :=
  scanAux_fuel fuel none code 0 h code.length le_rfl

theorem collectCall_len : ∀ (ts : List Token) (d : Nat),
    (collectCall ts d).2.length ≤ ts.length := by
  intro ts
  induction ts with
  | nil => intro d; cases d <;> simp [collectCall]
  | cons t rest ih =>
    intro d
    cases d with
    | zero => simp [collectCall]
    | succ d =>
      simp only [collectCall]
      exact le_trans (ih _) (Nat.le_succ _)

theorem combineAux_fuel : ∀ (f1 : Nat) (ts : List Token), ts.length ≤ f1 →
    ∀ f2, ts.length ≤ f2 → combineAux f1 ts = combineAux f2 ts := by
  intro f1
  induction f1 with
  | zero =>
    intro ts h1 f2 h2
    have hts : ts = [] := List.eq_nil_of_length_eq_zero (Nat.le_zero.mp h1)
    subst hts
    cases f2 <;> rfl
  | succ f1 ih =>
    intro ts h1 f2 h2
    cases ts with
    | nil => cases f2 <;> rfl
    | cons t rest =>
      cases f2 with
      | zero => simp at h2
      | succ f2 =>
        cases rest with
        | nil => rfl
        | cons p rest2 =>
          have h1' : rest2.length + 2 ≤ f1 + 1 := by simpa using h1
          have h2' : rest2.length + 2 ≤ f2 + 1 := by simpa using h2
          by_cases htr : t.type = TokType.IDENTIFIER ∧ p.type = TokType.SYMBOL ∧
              p.value = ['(']
          · simp only [combineAux, htr, if_pos]
            have hcl := collectCall_len rest2 1
            exact congrArg (List.cons _)
              (ih ((collectCall rest2 1).2) (by omega) f2 (by omega))
          · simp only [combineAux, htr, if_neg, not_false_eq_true]
            congr 1
            exact ih (p :: rest2) (by simp; omega) f2 (by simp; omega)

/-- Any fuel at least `tokens.length` computes exactly the merge pass. -/
theorem combine_fuel (ts : List Token) (fuel : Nat) (h : ts.length ≤ fuel) :
    combineAux fuel ts = combine_function_calls ts :=
  combineAux_fuel fuel ts h ts.length le_rfl

/-! ### Ordering lemmas for the scanner output -/

theorem chainedFrom_weaken {p q : Nat} {l : List Raw} (h : ChainedFrom p l)
    (hq : q ≤ p) : ChainedFrom q l := by
  cases l with
  | nil => trivial
  | cons r rs => exact ⟨le_trans hq h.1, h.2⟩

theorem chainedFrom_le {p : Nat} {l : List Raw} (h : ChainedFrom p l) :
    ∀ b ∈ l, p ≤ b.pos := by
  induction l generalizing p with
  | nil => intro b hb; simp at hb
  | cons r rs ih =>
    intro b hb
    rcases List.mem_cons.mp hb with rfl | hb
    · exact h.1
    · exact le_trans (le_trans h.1 (Nat.le_add_right _ _)) (ih h.2 b hb)

theorem chainedFrom_pairwise {p : Nat} {l : List Raw} (h : ChainedFrom p l) :
    l.Pairwise spanLe := by
  induction l generalizing p with
  | nil => exact List.Pairwise.nil
  | cons r rs ih =>
    exact List.Pairwise.cons (fun b hb => chainedFrom_le h.2 b hb) (ih h.2)

theorem scanAux_chained : ∀ fuel prev cs pos,
    ChainedFrom pos (scanAux fuel prev cs pos) := by
  intro fuel
  induction fuel with
  | zero => intro prev cs pos; trivial
  | succ fuel ih =>
    intro prev cs pos
    cases cs with
    | nil => trivial
    | cons c rest =>
      rcases hm : masterMatch prev (c :: rest) with _ | ⟨ty, lex, rem⟩
      · rw [scanAux, hm]
        exact chainedFrom_weaken (ih _ _ _) (Nat.le_succ _)
      · rw [scanAux, hm]
        exact ⟨le_rfl, ih _ _ _⟩

theorem scan_pairwise (code : List Char) : (scan code).Pairwise spanLe :=
  chainedFrom_pairwise (scanAux_chained _ _ _ _)

theorem lineNumAux_ge : ∀ (ls : List Nat) (pos acc : Nat),
    acc ≤ lineNumAux ls pos acc := by
  intro ls
  induction ls with
  | nil => intro pos acc; exact le_rfl
  | cons l rest ih =>
    intro pos acc
    by_cases h : l ≤ pos
    · simp only [lineNumAux, h, if_pos]
      exact le_trans (Nat.le_succ _) (ih pos (acc + 1))
    · simp only [lineNumAux, h, if_neg, not_false_eq_true]
      exact le_rfl

theorem lineNumAux_mono : ∀ (ls : List Nat) (p q acc : Nat), p ≤ q →
    lineNumAux ls p acc ≤ lineNumAux ls q acc := by
  intro ls
  induction ls with
  | nil => intro p q acc _; exact le_rfl
  | cons l rest ih =>
    intro p q acc hpq
    by_cases hp : l ≤ p
    · have hq : l ≤ q := le_trans hp hpq
      simp only [lineNumAux, hp, hq, if_pos]
      exact ih p q (acc + 1) hpq
    · by_cases hq : l ≤ q
      · simp only [lineNumAux, hp, hq, if_pos, if_neg, not_false_eq_true]
        exact le_trans (Nat.le_succ _) (lineNumAux_ge rest q (acc + 1))
      · simp only [lineNumAux, hp, hq, if_neg, not_false_eq_true]
        exact le_rfl

theorem mkToken_mono (ls : List Nat) (fname : List Char) {a b : Raw}
    (h : a.pos ≤ b.pos) : lexLe (mkToken ls fname a) (mkToken ls fname b) := by
  have hline : lineNum ls a.pos ≤ lineNum ls b.pos :=
    lineNumAux_mono _ _ _ _ h
  rcases lt_or_eq_of_le hline with hlt | heq
  · exact Or.inl hlt
  · refine Or.inr ⟨heq, ?_⟩
    simp only [mkToken, heq]
    exact Nat.add_le_add_right (Nat.sub_le_sub_right h _) 1

/-! ### Claim theorems -/

/-- C1.  For `#include <cmath>` the scanner produces a single
`STANDARD_LIBRARY` token (the include-specific categories precede
`PREPROCESSOR`, whose directive alternation does not contain `include`), so
the include-check branch of `find_problems` — which fires only on
`PREPROCESSOR` tokens — emits no Problem at all: the problem collector stays
empty, contrary to the specified one unauthorized-library Problem. -/
theorem c1_include_check_dead :
    rawTokens ("#include <cmath>".data) ("input.txt".data) =
      [⟨TokType.STANDARD_LIBRARY, ("#include <cmath>".data), 1, 1, ("input.txt".data)⟩] ∧
    tokenizeProblems ("#include <cmath>".data) ("input.txt".data) = [] := by
  constructor <;> rfl

/-- C2.  For `std::sort(v.begin(), v.end())` no `NAMESPACE` token is produced
(`IDENTIFIER` precedes `NAMESPACE` in the pattern table, so `std` and `sort`
are separate identifiers and `::` an operator), hence the std-qualified-name
rule emits no Problem; and `sort`, being a plain identifier followed by `(`,
IS merged into a composite `FUNCTION_CALL` token — both contrary to the
claim. -/
theorem c2_qualified_name_dead :
    tokenize ("std::sort(v.begin(), v.end())".data) ("input.txt".data) =
      [⟨TokType.IDENTIFIER, ("std".data), 1, 1, ("input.txt".data)⟩,
       ⟨TokType.OPERATOR_2CHAR, ("::".data), 1, 4, ("input.txt".data)⟩,
       ⟨TokType.FUNCTION_CALL, ("sort(v.begin(),v.end())".data), 1, 6, ("input.txt".data)⟩] ∧
    tokenizeProblems ("std::sort(v.begin(), v.end())".data) ("input.txt".data) = [] := by
  constructor <;> rfl

/-- C3.  No raw token of category `IDENTIFIER` ever has a lexeme containing
an open parenthesis (the `[a-zA-Z_]\w*` rule cannot match `(`), so the
restricted-function-call branch of `find_problems` — which requires an
`IDENTIFIER` token whose lexeme contains `(` — is unreachable: such a token
yields no Problem for any input. -/
theorem c3_identifier_no_paren :
    ∀ (code fname : List Char), ∀ t ∈ rawTokens code fname,
      t.type = TokType.IDENTIFIER → '(' ∉ t.value ∧ find_problems t = [] := by
  intro code fname t ht hty
  obtain ⟨r, hr, -, htyr, hval⟩ := rawTokens_shape ht
  have hnp : '(' ∉ t.value := by
    rw [hval]
    exact scanAux_ident _ _ _ _ r hr (htyr ▸ hty)
  refine ⟨hnp, ?_⟩
  simp [find_problems, hty, hnp]

/-- Witness for C3 at the concrete input `x(`. -/
theorem c3_identifier_no_paren_witness :
    '(' ∉ (Token.mk TokType.IDENTIFIER ['x'] 1 1 ("input.txt".data)).value ∧
    find_problems (Token.mk TokType.IDENTIFIER ['x'] 1 1 ("input.txt".data)) = [] :=
  c3_identifier_no_paren ("x(".data) ("input.txt".data)
    ⟨TokType.IDENTIFIER, ['x'], 1, 1, ("input.txt".data)⟩ (by decide) rfl

/-- C4.  Every `PREPROCESSOR` token whose text does not contain `include`
but contains `define` produces exactly one Problem, classified
"Function-like macro" when the text contains `(` and "Constant macro"
otherwise; in particular `#define MAX(a,b) ((a)>(b)?(a):(b))` yields the
function-like classification and `#define LIMIT 100` the constant one. -/
theorem c4_macro_classification :
    (∀ t : Token, t.type = TokType.PREPROCESSOR →
      hasSubstr includeWord t.value = false →
      hasSubstr defineWord t.value = true →
      find_problems t =
        [⟨t.line,
          (if '(' ∈ t.value then funcMacroMsg else constMacroMsg) ++ t.value,
          if '(' ∈ t.value then useConstexprFuncs else useConstexprVars⟩]) ∧
    tokenizeProblems ("#define MAX(a,b) ((a)>(b)?(a):(b))".data) ("input.txt".data) =
      [⟨1, funcMacroMsg ++ ("#define MAX(a,b) ((a)>(b)?(a):(b))".data),
        useConstexprFuncs⟩] ∧
    tokenizeProblems ("#define LIMIT 100".data) ("input.txt".data) =
      [⟨1, constMacroMsg ++ ("#define LIMIT 100".data), useConstexprVars⟩] := by
  refine ⟨?_, rfl, rfl⟩
  intro t h1 h2 h3
  simp only [find_problems, h1, h2, h3]
  by_cases hp : '(' ∈ t.value
  · simp [hp]
  · simp [hp]

/-- Witness for C4's universal part at a concrete `PREPROCESSOR` token. -/
theorem c4_macro_classification_witness :
    find_problems ⟨TokType.PREPROCESSOR, ("#define LIMIT 100".data), 1, 1,
        ("input.txt".data)⟩ =
      [⟨1, (if '(' ∈ ("#define LIMIT 100".data) then funcMacroMsg else constMacroMsg) ++
          ("#define LIMIT 100".data),
        if '(' ∈ ("#define LIMIT 100".data) then useConstexprFuncs
        else useConstexprVars⟩] :=
  c4_macro_classification.1
    ⟨TokType.PREPROCESSOR, ("#define LIMIT 100".data), 1, 1, ("input.txt".data)⟩
    rfl (by decide) (by decide)

/-- C5.  `0x1F + 0b101 + 3.14 + 077 + 42` scans to exactly these nine tokens:
the five numeric lexemes are classified hexadecimal, binary, float, octal and
integer respectively, none is a plain integer misclassification and none is
split (`3.14` is one `FLOAT_NUMBER` token). -/
theorem c5_numeric_disambiguation :
    tokenize ("0x1F + 0b101 + 3.14 + 077 + 42".data) ("input.txt".data) =
      [⟨TokType.HEX_NUMBER, ("0x1F".data), 1, 1, ("input.txt".data)⟩,
       ⟨TokType.OPERATOR_1CHAR, ("+".data), 1, 6, ("input.txt".data)⟩,
       ⟨TokType.BINARY_NUMBER, ("0b101".data), 1, 8, ("input.txt".data)⟩,
       ⟨TokType.OPERATOR_1CHAR, ("+".data), 1, 14, ("input.txt".data)⟩,
       ⟨TokType.FLOAT_NUMBER, ("3.14".data), 1, 16, ("input.txt".data)⟩,
       ⟨TokType.OPERATOR_1CHAR, ("+".data), 1, 21, ("input.txt".data)⟩,
       ⟨TokType.OCTAL_NUMBER, ("077".data), 1, 23, ("input.txt".data)⟩,
       ⟨TokType.OPERATOR_1CHAR, ("+".data), 1, 27, ("input.txt".data)⟩,
       ⟨TokType.INT_NUMBER, ("42".data), 1, 29, ("input.txt".data)⟩] := by
  rfl

/-- C6.  `a++b` produces one two-character `OPERATOR_2CHAR` token `++`
between the identifiers; the token stream contains no one-character `+`
token (`OPERATOR_2CHAR` precedes `OPERATOR_1CHAR` in the table). -/
theorem c6_priority_increment :
    tokenize ("a++b".data) ("input.txt".data) =
      [⟨TokType.IDENTIFIER, ("a".data), 1, 1, ("input.txt".data)⟩,
       ⟨TokType.OPERATOR_2CHAR, ("++".data), 1, 2, ("input.txt".data)⟩,
       ⟨TokType.IDENTIFIER, ("b".data), 1, 4, ("input.txt".data)⟩] := by
  rfl

/-- C7.  For the unbalanced input `foo(a, (b)` the merge pass terminates and
produces exactly one composite `FUNCTION_CALL` token whose lexeme is the
concatenation of every consumed lexeme from `foo` through end of input
(whitespace having been discarded by the scanner); no error path exists. -/
theorem c7_unbalanced_tolerance :
    tokenize ("foo(a, (b)".data) ("input.txt".data) =
      [⟨TokType.FUNCTION_CALL, ("foo(a,(b)".data), 1, 1, ("input.txt".data)⟩] := by
  rfl

/-- C8.  The Call Merger is idempotent: applying `combine_function_calls` to
its own output returns it unchanged, and no `IDENTIFIER`-then-`(`-symbol
adjacency survives one pass. -/
theorem c8_merge_idempotent (ts : List Token) :
    combine_function_calls (combine_function_calls ts) = combine_function_calls ts ∧
    hasAdj (combine_function_calls ts) = false :=
  ⟨combineAux_fixed _ _ le_rfl (hasAdj_combineAux _ _), hasAdj_combineAux _ _⟩

/-- C9.  For every input, the raw token sequence emitted by the scanner is
non-decreasing in `(line, column)` (lexicographically), and the underlying
raw matches have pairwise non-overlapping spans: each match ends at or
before the next one starts. -/
theorem c9_position_ordering :
    ∀ (code fname : List Char),
      (rawTokens code fname).Pairwise lexLe ∧
      ((scan code).filter (fun r => r.type ≠ TokType.WHITESPACE)).Pairwise spanLe := by
  intro code fname
  have hspan : ((scan code).filter
      (fun r => r.type ≠ TokType.WHITESPACE)).Pairwise spanLe :=
    List.Pairwise.sublist (List.filter_sublist _) (scan_pairwise code)
  refine ⟨?_, hspan⟩
  rw [rawTokens, List.pairwise_map]
  exact hspan.imp (fun h =>
    mkToken_mono _ _ (le_trans (Nat.le_add_right _ _) h))

/-- C10.  The merge trigger is token adjacency, not source-character
adjacency: whitespace never reaches the token list (so `foo (x)` still
merges into one composite call token), while an intervening non-whitespace
token such as a comment (`foo /*c*/ (x)`) prevents the merge. -/
theorem c10_adjacency_trigger :
    (∀ (code fname : List Char),
      (rawTokens code fname).all (fun t => !(t.type == TokType.WHITESPACE)) = true) ∧
    tokenize ("foo (x)".data) ("input.txt".data) =
      [⟨TokType.FUNCTION_CALL, ("foo(x)".data), 1, 1, ("input.txt".data)⟩] ∧
    tokenize ("foo /*c*/ (x)".data) ("input.txt".data) =
      [⟨TokType.IDENTIFIER, ("foo".data), 1, 1, ("input.txt".data)⟩,
       ⟨TokType.COMMENT, ("/*c*/".data), 1, 5, ("input.txt".data)⟩,
       ⟨TokType.SYMBOL, ("(".data), 1, 11, ("input.txt".data)⟩,
       ⟨TokType.IDENTIFIER, ("x".data), 1, 12, ("input.txt".data)⟩,
       ⟨TokType.SYMBOL, (")".data), 1, 13, ("input.txt".data)⟩] := by
  refine ⟨?_, rfl, rfl⟩
  intro code fname
  rw [List.all_eq_true]
  intro t ht
  obtain ⟨r, -, hws, hty, -⟩ := rawTokens_shape ht
  simp [hty, hws]

end SimpleLexer
